import Mathlib

/-!
Verification of the Contexter snapshot codec and patch engine.

The embedding models the Markdown-constructor pipeline of the repository:

* `encodeMd`   — the serialization loop of `updater.py` (lines 51-56),
* `decodeMd`   — `parse_md_constructor` of `contexter_utils.py` (lines 70-108),
* `diffBlocks` / `diffDocLines` — the diff loop of `update_context.py` (lines 20-33),
* `parseMdPatch` — `_parse_md_patch` of `contexter_utils.py` (lines 139-161),
* `pyFromstring` / `pyApply` — the external `patch` library, modelled from the spec,
* `applyOne` / `applyAll` — the apply loop of `updater.py` (lines 26-43).

Documents are modelled as lists of lines (each line of a file as read by
`for line in f`, without its trailing newline).  Python strings are Lean
strings; the string primitives used by the source (`strip`, `splitlines`,
`startswith`, string sorting) are re-implemented on `List Char` so that all
proofs can proceed by structural induction.  Only the byte-level details that
the source exercises are modelled: line separators are `\n`, and theorem
hypotheses restrict contents to carriage-return-free text where Python would
additionally split on exotic separators.
-/

/-- Python whitespace characters recognised by `str.strip`: the code points
for which `str.isspace()` holds (U+0009 - U+000D, U+001C - U+001F, space,
U+0085, U+00A0, U+1680, U+2000 - U+200A, U+2028, U+2029, U+202F, U+205F and
U+3000). -/
def wsChar (c : Char) : Bool :=
  (0x09 ≤ c.toNat && c.toNat ≤ 0x0d) || (0x1c ≤ c.toNat && c.toNat ≤ 0x1f) ||
    c.toNat = 0x20 || c.toNat = 0x85 || c.toNat = 0xa0 || c.toNat = 0x1680 ||
    (0x2000 ≤ c.toNat && c.toNat ≤ 0x200a) || c.toNat = 0x2028 ||
    c.toNat = 0x2029 || c.toNat = 0x202f || c.toNat = 0x205f || c.toNat = 0x3000

/-- `str.strip()` on a list of characters: drop whitespace from both ends. -/
def stripL (l : List Char) : List Char :=
  ((l.dropWhile wsChar).reverse.dropWhile wsChar).reverse

/-- Python `s.strip()`. -/
def pyStrip (s : String) : String := ⟨stripL s.data⟩

/-- Split a character list at every occurrence of the character `sep`. -/
def splitCharL (sep : Char) : List Char → List (List Char)
  | [] => [[]]
  | c :: rest =>
    match splitCharL sep rest with
    | [] => [[c]]
    | h :: t => if c = sep then [] :: h :: t else (c :: h) :: t

/-- Join lines with newline characters (Python `join` with a newline). -/
def joinNl (ls : List String) : String := ⟨List.intercalate ['\n'] (ls.map String.data)⟩

/-- Python `s.splitlines()` for newline-separated text: like splitting on the
newline character, but a trailing newline does not produce a final empty
line, and the empty string yields no lines. -/
def pySplitlines (s : String) : List String :=
  let ps := splitCharL '\n' s.data
  (if ps.getLast? = some [] then ps.dropLast else ps).map (⟨·⟩)

/-- Lexicographic code-point comparison, modelling Python string `<=`. -/
def strLeB : List Char → List Char → Bool
  | [], _ => true
  | _ :: _, [] => false
  | a :: as, b :: bs => if a = b then strLeB as bs else decide (a.toNat < b.toNat)

/-- Python `sorted` on a list of strings (comparison by code points). -/
def sortStrs (l : List String) : List String :=
  l.insertionSort (fun a b => strLeB a.data b.data)

/-- A snapshot: an ordered mapping from relative path to `some content`
(text entry) or `none` (binary marker), as built by `parse_md_constructor`. -/
abbrev Snap := List (String × Option String)

/-- Dictionary write `d[k] = v`: replace the value of an existing key in
place, otherwise append the new binding (Python dict insertion order). -/
def setEntry {β : Type} (m : List (String × β)) (k : String) (v : β) : List (String × β) :=
  if (List.lookup k m).isSome then
    m.map fun kv => if kv.1 = k then (kv.1, v) else kv
  else m ++ [(k, v)]

/-- Dictionary deletion `del d[k]`. -/
def delEntry {β : Type} (m : List (String × β)) (k : String) : List (String × β) :=
  m.filter fun kv => kv.1 ≠ k

/-- The content stored for a text entry by the serialization loop of
`updater.py`: the entry content passed through Python `strip()`. -/
def contentStored (c : String) : String := pyStrip c

/-- The tag of one diff line: unchanged context, removed, or added. -/
inductive DTag
  | ctx
  | del
  | ins
deriving DecidableEq

/-- Modelled from the spec: length of a longest common subsequence, the
alignment underlying the external line differ (fuel-driven recursion; the
fuel is at least the total length of the two inputs at every call). -/
def lcsLenFuel : Nat → List String → List String → Nat
  | _, [], _ => 0
  | _, _ :: _, [] => 0
  | 0, _ :: _, _ :: _ => 0
  | fuel + 1, x :: xs, y :: ys =>
    if x = y then 1 + lcsLenFuel fuel xs ys
    else max (lcsLenFuel fuel xs (y :: ys)) (lcsLenFuel fuel (x :: xs) ys)

/-- Modelled from the spec: tag every line of the two inputs as context,
removed, or added along a longest-common-subsequence alignment. -/
def dtFuel : Nat → List String → List String → List (DTag × String)
  | _, [], ys => ys.map ((DTag.ins, ·))
  | _, x :: xs, [] => (DTag.del, x) :: xs.map ((DTag.del, ·))
  | 0, _ :: _, _ :: _ => []
  | fuel + 1, x :: xs, y :: ys =>
    if x = y then (DTag.ctx, x) :: dtFuel fuel xs ys
    else if lcsLenFuel fuel xs (y :: ys) ≥ lcsLenFuel fuel (x :: xs) ys then
      (DTag.del, x) :: dtFuel fuel xs (y :: ys)
    else (DTag.ins, y) :: dtFuel fuel (x :: xs) ys

/-- Modelled from the spec: the tagged diff of two line sequences. -/
def diffTags (xs ys : List String) : List (DTag × String) :=
  dtFuel (xs.length + ys.length) xs ys

/-- One hunk of a rendered diff: half-open zero-based line ranges
`i1..i2` of the old and `j1..j2` of the new sequence, plus tagged lines. -/
structure Hunk where
  i1 : Nat
  i2 : Nat
  j1 : Nat
  j2 : Nat
  lines : List (DTag × String)
deriving DecidableEq

/-- Inside one changed run of a hunk the removed lines are rendered before
the added lines, as the unified format does per opcode. -/
def reorderChanges : List (DTag × String) → List (DTag × String) :=
  go [] []
where
  go : List (DTag × String) → List (DTag × String) → List (DTag × String) → List (DTag × String)
    | dels, inss, [] => dels ++ inss
    | dels, inss, (DTag.ctx, a) :: rest => dels ++ inss ++ (DTag.ctx, a) :: go [] [] rest
    | dels, inss, (DTag.del, a) :: rest => go (dels ++ [(DTag.del, a)]) inss rest
    | dels, inss, (DTag.ins, a) :: rest => go dels (inss ++ [(DTag.ins, a)]) rest

/-- A hunk being built by the grouper: its start positions, the number of
old and new lines collected so far, and its lines. -/
structure GOpen where
  i1 : Nat
  j1 : Nat
  oldCnt : Nat
  newCnt : Nat
  lines : List (DTag × String)

/-- State of the hunk grouper: finished hunks, the open hunk if any, the
pending run of context lines, and the zero-based positions reached in the
old and new sequences. -/
structure GState where
  done : List Hunk
  cur : Option GOpen
  pend : List String
  i : Nat
  j : Nat

/-- Close an open hunk, appending up to `n` trailing context lines. -/
def closeOpen (g : GOpen) (trail : List String) : Hunk :=
  ⟨g.i1, g.i1 + g.oldCnt + trail.length, g.j1, g.j1 + g.newCnt + trail.length,
    reorderChanges (g.lines ++ trail.map ((DTag.ctx, ·)))⟩

/-- Absorb a full pending context run into an open hunk. -/
def absorbPend (g : GOpen) (pend : List String) : GOpen :=
  ⟨g.i1, g.j1, g.oldCnt + pend.length, g.newCnt + pend.length,
    g.lines ++ pend.map ((DTag.ctx, ·))⟩

/-- Open a hunk just before a change, with the last `k` pending context
lines (at most `n`) as leading context. -/
def openAt (n : Nat) (st : GState) : GOpen :=
  let k := min n st.pend.length
  ⟨st.i - k, st.j - k, k, k, (st.pend.drop (st.pend.length - k)).map ((DTag.ctx, ·))⟩

/-- Record one removed or added line into an open hunk. -/
def addChange (g : GOpen) (t : DTag) (a : String) : GOpen :=
  if t = DTag.del then ⟨g.i1, g.j1, g.oldCnt + 1, g.newCnt, g.lines ++ [(t, a)]⟩
  else ⟨g.i1, g.j1, g.oldCnt, g.newCnt + 1, g.lines ++ [(t, a)]⟩

/-- Grouper transition on a removed or added line: extend the open hunk
through the pending context if it is short enough (at most `2 * n` lines),
otherwise close the open hunk and start a new one; when no hunk is open,
start one. -/
def gOnChange (n : Nat) (st : GState) (t : DTag) (a : String) : GState :=
  let opened : GOpen × List Hunk :=
    match st.cur with
    | some g =>
      if st.pend.length ≤ 2 * n then (absorbPend g st.pend, st.done)
      else (openAt n st, st.done ++ [closeOpen g (st.pend.take n)])
    | none => (openAt n st, st.done)
  let g := addChange opened.1 t a
  if t = DTag.del then ⟨opened.2, some g, [], st.i + 1, st.j⟩
  else ⟨opened.2, some g, [], st.i, st.j + 1⟩

/-- Grouper transition on one tagged line. -/
def gStep (n : Nat) (st : GState) (ta : DTag × String) : GState :=
  match ta.1 with
  | DTag.ctx => ⟨st.done, st.cur, st.pend ++ [ta.2], st.i + 1, st.j + 1⟩
  | t => gOnChange n st t ta.2

/-- Modelled from the spec: collapse a tagged diff into hunks, each padded
with at most `n` context lines on either side, merging hunks whose context
regions overlap (a context run longer than `2 * n` separates hunks). -/
def groupHunks (n : Nat) (tags : List (DTag × String)) : List Hunk :=
  let st := tags.foldl (gStep n) ⟨[], none, [], 0, 0⟩
  match st.cur with
  | some g => st.done ++ [closeOpen g (st.pend.take n)]
  | none => st.done

/-- The coercion `d.get(path) or ""` of `update_context.py`: a missing path
and a binary marker alike read as empty content. -/
def entryStrOf : Option (Option String) → String
  | some (some c) => c
  | _ => ""

/-- The per-path diff decision of `update_context.py` (lines 22-32): omit
the path when the coerced contents agree, otherwise diff their lines. -/
def diffFor (a b : Snap) (p : String) : Option (List Hunk) :=
  let oc := entryStrOf (List.lookup p a)
  let mc := entryStrOf (List.lookup p b)
  if oc = mc then none
  else some (groupHunks 3 (diffTags (pySplitlines oc) (pySplitlines mc)))

/-- `sorted(list(set(original) | set(modified)))` of `update_context.py`. -/
def diffKeys (a b : Snap) : List String :=
  sortStrs ((a.map Prod.fst ++ b.map Prod.fst).dedup)

/-- The PatchSet computed by `update_context.py`: one entry per changed
path, in sorted path order. -/
def diffBlocks (a b : Snap) : List (String × List Hunk) :=
  (diffKeys a b).filterMap fun p => (diffFor a b p).map ((p, ·))

/-- A parsed hunk: the claimed old and new ranges (one-based starts as
carried by the header, a zero start denoting an empty range) and the
tagged lines of the hunk body. -/
structure PHunk where
  oldStart : Nat
  oldLen : Nat
  newStart : Nat
  newLen : Nat
  lines : List (DTag × String)
deriving DecidableEq

/-- A parsed patch for one file, as returned by `patch.fromstring`. -/
structure PatchObj where
  hunks : List PHunk
deriving DecidableEq

/-- The old-side lines of a hunk (context and removed). -/
def hunkOldLines (h : PHunk) : List String :=
  h.lines.filterMap fun tl => if tl.1 = DTag.ins then none else some tl.2

/-- The new-side lines of a hunk (context and added). -/
def hunkNewLines (h : PHunk) : List String :=
  h.lines.filterMap fun tl => if tl.1 = DTag.del then none else some tl.2

/-- Modelled from the spec: apply one hunk at its claimed offset, adjusted
by the cumulative drift of earlier hunks in the same file.  The old-side
lines must match the current content exactly at that offset; on a match
they are spliced out and replaced by the new-side lines. -/
def applyHunkAt (lines : List String) (delta : Int) (h : PHunk) :
    Option (List String × Int) :=
  let pos0 : Int := (if h.oldLen = 0 then (h.oldStart : Int) else (h.oldStart : Int) - 1) + delta
  if pos0 < 0 then none
  else
    let pos := pos0.toNat
    let expect := hunkOldLines h
    let repl := hunkNewLines h
    if pos + expect.length ≤ lines.length ∧ (lines.drop pos).take expect.length = expect then
      some (lines.take pos ++ repl ++ lines.drop (pos + expect.length),
        delta + (repl.length : Int) - (expect.length : Int))
    else none

/-- Modelled from the spec: `patch_set.apply` on a content string — split
into lines, apply every hunk in order against the cumulative result, and
join; `none` reports a hunk mismatch for this file. -/
def pyApply (ps : PatchObj) (content : String) : Option String :=
  (ps.hunks.foldl
      (fun st h =>
        match st with
        | none => none
        | some ld => applyHunkAt ld.1 ld.2 h)
      (some (pySplitlines content, 0))).map
    fun ld => joinNl ld.1

/-- The per-file result of the apply loop of `updater.py`: the branch taken
(a hunk mismatch, modelled from the spec error taxonomy, keeps the entry
and reports per file; the final warning branch is exactly the
cannot-patch-binary rejection). -/
inductive Outcome
  | added
  | deleted
  | modified
  | hunkFail
  | cannotPatchBinary
deriving DecidableEq

/-- One iteration of the apply loop of `updater.py` (lines 26-43): an
absent path is an addition applied to empty content; a present path with an
empty patch is a deletion; a present text entry is modified; what remains —
a present binary entry and a nonempty patch — is rejected with a per-file
warning. -/
def applyOne (cur : Snap) (p : String) (ps : PatchObj) : Snap × Outcome :=
  if (List.lookup p cur).isNone then
    match pyApply ps "" with
    | some r => (setEntry cur p (some r), Outcome.added)
    | none => (cur, Outcome.hunkFail)
  else if ps.hunks = [] then (delEntry cur p, Outcome.deleted)
  else
    match List.lookup p cur with
    | some (some c) =>
      match pyApply ps c with
      | some r => (setEntry cur p (some r), Outcome.modified)
      | none => (cur, Outcome.hunkFail)
    | _ => (cur, Outcome.cannotPatchBinary)

/-- The apply loop of `updater.py` over a parsed patch dictionary, with the
per-file outcomes in processing order. -/
def applyAll (base : Snap) (patches : List (String × PatchObj)) :
    Snap × List (String × Outcome) :=
  patches.foldl
    (fun acc pp =>
      let r := applyOne acc.1 pp.1 pp.2
      (r.1, acc.2 ++ [(pp.1, r.2)]))
    (base, [])

/-- The single full-content hunk of an added file: empty old range, the
whole new content as added lines. -/
def insHunkOf (ls : List String) : Hunk :=
  ⟨0, 0, 0, ls.length, ls.map ((DTag.ins, ·))⟩

/-- The single full-content hunk of a removed file: the whole old content
as removed lines, empty new range. -/
def delHunkOf (ls : List String) : Hunk :=
  ⟨0, ls.length, 0, 0, ls.map ((DTag.del, ·))⟩

/-- From the words of the spec, for comparison with `contentStored`: the
normalization the spec describes, removal of trailing whitespace only. -/
def specTrailingStrip (c : String) : String := ⟨(c.data.reverse.dropWhile wsChar).reverse⟩

/-- The snapshot component of the apply loop, without the outcome log. -/
def applySnap (base : Snap) (patches : List (String × PatchObj)) : Snap :=
  patches.foldl (fun s pp => (applyOne s pp.1 pp.2).1) base

/-! ## Dictionary lemmas -/

theorem lookup_cons_ne {β : Type} {k p : String} (v : β) (m : List (String × β)) (h : p ≠ k) :
    List.lookup p ((k, v) :: m) = List.lookup p m := by
  simp [List.lookup, beq_false_of_ne h]

theorem lookup_none_iff_keys {β : Type} {m : List (String × β)} {p : String} :
    List.lookup p m = none ↔ p ∉ m.map Prod.fst := by
  induction m with
  | nil => simp
  | cons kv rest ih =>
    obtain ⟨k, v⟩ := kv
    by_cases h : p = k
    · subst h; simp [List.lookup_cons_self]
    · simp [lookup_cons_ne v rest h, ih, h]

theorem lookup_append_or {β : Type} (m₁ m₂ : List (String × β)) (p : String) :
    List.lookup p (m₁ ++ m₂) = (List.lookup p m₁).or (List.lookup p m₂) := by
  induction m₁ with
  | nil => simp
  | cons kv rest ih =>
    obtain ⟨k, v⟩ := kv
    by_cases h : p = k
    · subst h; simp [List.lookup_cons_self]
    · simpa [lookup_cons_ne v _ h] using ih

theorem lookup_mapReplace_self {β : Type} {m : List (String × β)} {k : String} (v : β)
    (h : (List.lookup k m).isSome) :
    List.lookup k (m.map fun kv => if kv.1 = k then (kv.1, v) else kv) = some v := by
  induction m with
  | nil => simp at h
  | cons kv rest ih =>
    obtain ⟨k', v'⟩ := kv
    by_cases hk : k' = k
    · subst hk; simp [List.lookup_cons_self]
    · have hne : k ≠ k' := fun hh => hk hh.symm
      have h' : (List.lookup k rest).isSome := by
        simpa [lookup_cons_ne v' rest hne] using h
      simpa [hk, lookup_cons_ne (β := β) v' _ hne,
        lookup_cons_ne (β := β) v' (rest.map fun kv => if kv.1 = k then (kv.1, v) else kv) hne]
        using ih h'

theorem lookup_mapReplace_ne {β : Type} (m : List (String × β)) {p k : String} (v : β)
    (h : p ≠ k) :
    List.lookup p (m.map fun kv => if kv.1 = k then (kv.1, v) else kv) = List.lookup p m := by
  induction m with
  | nil => simp
  | cons kv rest ih =>
    obtain ⟨k', v'⟩ := kv
    by_cases hk : k' = k
    · subst hk
      have hne : p ≠ k' := h
      simp [lookup_cons_ne (β := β) v _ hne, lookup_cons_ne (β := β) v' _ hne, ih]
    · by_cases hp : p = k'
      · subst hp; simp [hk, List.lookup_cons_self]
      · simp [hk, lookup_cons_ne (β := β) v' _ hp, ih]

theorem lookup_setEntry_self {β : Type} (m : List (String × β)) (k : String) (v : β) :
    List.lookup k (setEntry m k v) = some v := by
  unfold setEntry
  split
  · exact lookup_mapReplace_self v (by assumption)
  · rename_i h
    have hn : List.lookup k m = none := by
      cases hE : List.lookup k m with
      | none => rfl
      | some w => rw [hE] at h; simp at h
    rw [lookup_append_or, hn, List.lookup_cons_self]
    rfl

theorem lookup_setEntry_ne {β : Type} (m : List (String × β)) (k : String) (v : β)
    {p : String} (h : p ≠ k) :
    List.lookup p (setEntry m k v) = List.lookup p m := by
  unfold setEntry
  split
  · exact lookup_mapReplace_ne m v h
  · rw [lookup_append_or]
    have : List.lookup p [(k, v)] = none := by
      simp [List.lookup, beq_false_of_ne h]
    rw [this]
    cases List.lookup p m <;> rfl

theorem lookup_delEntry_self {β : Type} (m : List (String × β)) (k : String) :
    List.lookup k (delEntry m k) = none := by
  rw [lookup_none_iff_keys]
  intro hmem
  simp only [delEntry, List.mem_map, List.mem_filter] at hmem
  obtain ⟨kv, ⟨_, hne⟩, hfst⟩ := hmem
  rw [hfst] at hne
  simp at hne

theorem lookup_delEntry_ne {β : Type} (m : List (String × β)) (k : String) {p : String}
    (h : p ≠ k) : List.lookup p (delEntry m k) = List.lookup p m := by
  induction m with
  | nil => rfl
  | cons kv rest ih =>
    obtain ⟨k', v'⟩ := kv
    show List.lookup p (List.filter _ ((k', v') :: rest)) = _
    rw [List.filter_cons]
    by_cases hk : k' = k
    · subst hk
      rw [if_neg (by simp)]
      rw [show List.filter _ rest = delEntry rest k' from rfl, ih]
      exact (lookup_cons_ne v' rest h).symm
    · rw [if_pos (by simpa using hk)]
      by_cases hp : p = k'
      · subst hp; simp [List.lookup_cons_self]
      · rw [lookup_cons_ne (β := β) v' _ hp, lookup_cons_ne (β := β) v' _ hp]
        exact ih

/-! ## Apply loop lemmas -/

theorem applyOne_lookup_other (cur : Snap) (p : String) (ps : PatchObj) {q : String}
    (h : q ≠ p) : List.lookup q (applyOne cur p ps).1 = List.lookup q cur := by
  unfold applyOne
  split
  · split
    · exact lookup_setEntry_ne _ _ _ h
    · rfl
  · split
    · exact lookup_delEntry_ne _ _ h
    · split
      · split
        · exact lookup_setEntry_ne _ _ _ h
        · rfl
      · rfl

theorem applyOne_binary (cur : Snap) (p : String) (ps : PatchObj)
    (h1 : List.lookup p cur = some none) (h2 : ps.hunks ≠ []) :
    applyOne cur p ps = (cur, Outcome.cannotPatchBinary) := by
  simp [applyOne, h1, h2]

theorem applyOne_delete (cur : Snap) (p : String) (ps : PatchObj)
    (h1 : (List.lookup p cur).isSome) (h2 : ps.hunks = []) :
    applyOne cur p ps = (delEntry cur p, Outcome.deleted) := by
  cases hE : List.lookup p cur with
  | none => rw [hE] at h1; simp at h1
  | some v => simp [applyOne, hE, h2]

theorem applyOne_add (cur : Snap) (p : String) (ps : PatchObj)
    (h1 : List.lookup p cur = none) :
    applyOne cur p ps =
      match pyApply ps "" with
      | some r => (setEntry cur p (some r), Outcome.added)
      | none => (cur, Outcome.hunkFail) := by
  simp [applyOne, h1]

theorem applySnap_append (base : Snap) (xs ys : List (String × PatchObj)) :
    applySnap base (xs ++ ys) = applySnap (applySnap base xs) ys := by
  simp [applySnap, List.foldl_append]

theorem applySnap_cons (base : Snap) (pm : String × PatchObj) (ps : List (String × PatchObj)) :
    applySnap base (pm :: ps) = applySnap (applyOne base pm.1 pm.2).1 ps := rfl

theorem lookup_applySnap_notin {ps : List (String × PatchObj)} {p : String}
    (h : p ∉ ps.map Prod.fst) (base : Snap) :
    List.lookup p (applySnap base ps) = List.lookup p base := by
  induction ps generalizing base with
  | nil => rfl
  | cons pp rest ih =>
    simp only [List.map_cons, List.mem_cons] at h
    push_neg at h
    rw [applySnap_cons, ih h.2, applyOne_lookup_other _ _ _ h.1]

theorem applyAll_acc (ps : List (String × PatchObj)) (s : Snap)
    (out : List (String × Outcome)) :
    ps.foldl
        (fun acc pp =>
          let r := applyOne acc.1 pp.1 pp.2
          (r.1, acc.2 ++ [(pp.1, r.2)]))
        (s, out) =
      (applySnap s ps, out ++ (applyAll s ps).2) := by
  induction ps generalizing s out with
  | nil => simp [applySnap, applyAll]
  | cons pp rest ih =>
    simp only [List.foldl_cons]
    rw [ih]
    have h2 := ih (applyOne s pp.1 pp.2).1 [(pp.1, (applyOne s pp.1 pp.2).2)]
    simp only [applyAll, List.foldl_cons, List.nil_append] at h2 ⊢
    rw [h2]
    simp [applySnap_cons, List.append_assoc]

theorem applyAll_fst (base : Snap) (ps : List (String × PatchObj)) :
    (applyAll base ps).1 = applySnap base ps := by
  show (ps.foldl _ (base, [])).1 = _
  rw [applyAll_acc]

theorem applyAll_snd_append (base : Snap) (xs ys : List (String × PatchObj)) :
    (applyAll base (xs ++ ys)).2 =
      (applyAll base xs).2 ++ (applyAll (applySnap base xs) ys).2 := by
  show (List.foldl _ (base, []) _).2 = _
  rw [List.foldl_append, applyAll_acc xs base [], applyAll_acc ys]
  simp

theorem applyAll_cons_snd (base : Snap) (pm : String × PatchObj)
    (ys : List (String × PatchObj)) :
    (applyAll base (pm :: ys)).2 =
      (pm.1, (applyOne base pm.1 pm.2).2) ::
        (applyAll (applyOne base pm.1 pm.2).1 ys).2 := by
  show (List.foldl _ (base, []) _).2 = _
  rw [List.foldl_cons]
  show (List.foldl _ ((applyOne base pm.1 pm.2).1, [(pm.1, (applyOne base pm.1 pm.2).2)]) ys).2 = _
  rw [applyAll_acc]
  rfl

theorem applyAll_snd_split (base : Snap) (l₁ l₂ : List (String × PatchObj))
    (pm : String × PatchObj) :
    (applyAll base (l₁ ++ pm :: l₂)).2 =
      (applyAll base l₁).2 ++
        (pm.1, (applyOne (applySnap base l₁) pm.1 pm.2).2) ::
          (applyAll (applyOne (applySnap base l₁) pm.1 pm.2).1 l₂).2 := by
  rw [applyAll_snd_append, applyAll_cons_snd]

/-- C4: a FilePatch with zero hunks for a path present in the base removes
that path from the result of the apply loop. -/
theorem apply_delete_semantics (base : Snap) (patches : List (String × PatchObj))
    (p : String) (obj : PatchObj) (hnd : (patches.map Prod.fst).Nodup)
    (hmem : (p, obj) ∈ patches) (hz : obj.hunks = [])
    (hpres : (List.lookup p base).isSome) :
    List.lookup p (applyAll base patches).1 = none := by
  obtain ⟨l₁, l₂, rfl⟩ := List.append_of_mem hmem
  rw [applyAll_fst]
  rw [List.map_append, List.map_cons] at hnd
  have h1 : p ∉ l₁.map Prod.fst := by
    rcases List.nodup_append.mp hnd with ⟨_, _, hdisj⟩
    intro hmem1
    exact hdisj hmem1 (List.mem_cons_self _ _)
  have h2 : p ∉ l₂.map Prod.fst := by
    rcases List.nodup_append.mp hnd with ⟨_, hcons, _⟩
    exact (List.nodup_cons.mp hcons).1
  rw [applySnap_append, applySnap_cons]
  have hpres₁ : (List.lookup p (applySnap base l₁)).isSome := by
    rw [lookup_applySnap_notin h1]; exact hpres
  rw [applyOne_delete _ _ _ hpres₁ hz]
  rw [lookup_applySnap_notin h2]
  exact lookup_delEntry_self _ _

theorem apply_delete_semantics_witness :
    List.lookup "x.txt"
        (applyAll [("x.txt", some "content\n")] [("x.txt", PatchObj.mk [])]).1 = none :=
  apply_delete_semantics [("x.txt", some "content\n")] [("x.txt", PatchObj.mk [])]
    "x.txt" (PatchObj.mk []) (by decide) (by decide) rfl (by decide)

/-- C8: a FilePatch with hunks aimed at a path that is present but
binary-marked in the base is rejected with the per-file cannot-patch-binary
outcome, leaves the entry unchanged, and does not disturb the processing of
the other files of the PatchSet. -/
theorem apply_binary_rejection (base : Snap) (l₁ l₂ : List (String × PatchObj))
    (p : String) (obj : PatchObj) (h1 : p ∉ l₁.map Prod.fst) (h2 : p ∉ l₂.map Prod.fst)
    (hb : List.lookup p base = some none) (hh : obj.hunks ≠ []) :
    List.lookup p (applyAll base (l₁ ++ (p, obj) :: l₂)).1 = some none ∧
      (p, Outcome.cannotPatchBinary) ∈ (applyAll base (l₁ ++ (p, obj) :: l₂)).2 ∧
      (applyAll base (l₁ ++ (p, obj) :: l₂)).1 = (applyAll base (l₁ ++ l₂)).1 := by
  have hb₁ : List.lookup p (applySnap base l₁) = some none := by
    rw [lookup_applySnap_notin h1]; exact hb
  have hone : applyOne (applySnap base l₁) p obj = (applySnap base l₁, Outcome.cannotPatchBinary) :=
    applyOne_binary _ _ _ hb₁ hh
  refine ⟨?_, ?_, ?_⟩
  · rw [applyAll_fst, applySnap_append, applySnap_cons, hone]
    rw [lookup_applySnap_notin h2]
    exact hb₁
  · rw [applyAll_snd_split]
    refine List.mem_append.mpr (Or.inr ?_)
    rw [hone]
    exact List.mem_cons_self _ _
  · rw [applyAll_fst, applyAll_fst, applySnap_append, applySnap_cons, hone,
      applySnap_append]

theorem apply_binary_rejection_witness :
    ("b.bin", Outcome.cannotPatchBinary) ∈
      (applyAll [("b.bin", none), ("c.txt", some "c")]
          ([] ++ ("b.bin", PatchObj.mk [PHunk.mk 0 0 1 1 [(DTag.ins, "x")]]) ::
            [("d.txt", PatchObj.mk [PHunk.mk 0 0 1 1 [(DTag.ins, "d")]])])).2 :=
  (apply_binary_rejection [("b.bin", none), ("c.txt", some "c")] []
      [("d.txt", PatchObj.mk [PHunk.mk 0 0 1 1 [(DTag.ins, "d")]])]
      "b.bin" (PatchObj.mk [PHunk.mk 0 0 1 1 [(DTag.ins, "x")]])
      (by decide) (by decide) (by decide) (by decide)).2.1

/-- C9: the apply loop tests the add branch first, so a FilePatch for a
path absent from the base is applied against empty content whatever its
hunk count; with zero hunks this yields an empty text entry, not an
unchanged result, and the delete branch can only fire for a present path. -/
theorem apply_branch_order (cur : Snap) (p : String) (ps : PatchObj)
    (h : List.lookup p cur = none) :
    List.lookup p (applyOne cur p ps).1 = (pyApply ps "").map some ∧
      (ps.hunks = [] → List.lookup p (applyOne cur p ps).1 = some (some "") ∧
        List.lookup p (applyOne cur p ps).1 ≠ List.lookup p cur) := by
  have hempty : ps.hunks = [] → pyApply ps "" = some "" := by
    intro h0
    unfold pyApply
    rw [h0]
    rfl
  constructor
  · rw [applyOne_add _ _ _ h]
    cases hA : pyApply ps "" with
    | none => simpa [hA] using h
    | some r => simp [hA, lookup_setEntry_self]
  · intro h0
    have hs : List.lookup p (applyOne cur p ps).1 = some (some "") := by
      rw [applyOne_add _ _ _ h, hempty h0]
      simp [lookup_setEntry_self]
    refine ⟨hs, ?_⟩
    rw [hs, h]
    simp

theorem apply_branch_order_witness :
    List.lookup "b.txt" (applyOne [("a.txt", some "x")] "b.txt" (PatchObj.mk [])).1 =
      some (some "") :=
  ((apply_branch_order [("a.txt", some "x")] "b.txt" (PatchObj.mk []) (by decide)).2 rfl).1

/-! ## String lemmas -/

theorem str_eta (s : String) : (⟨s.data⟩ : String) = s := rfl

theorem intercalate_single (s : List Char) (x : List Char) :
    List.intercalate s [x] = x := by
  simp [List.intercalate]

theorem intercalate_cons₂ (s : List Char) (x y : List Char) (t : List (List Char)) :
    List.intercalate s (x :: y :: t) = x ++ s ++ List.intercalate s (y :: t) := by
  simp [List.intercalate, List.intersperse_cons₂]

theorem splitCharL_ne_nil (sep : Char) (l : List Char) : splitCharL sep l ≠ [] := by
  cases l with
  | nil => simp [splitCharL]
  | cons c rest =>
    unfold splitCharL
    cases splitCharL sep rest with
    | nil => simp
    | cons h t =>
      by_cases hc : c = sep <;> simp [hc]

theorem intercalate_splitCharL (sep : Char) (l : List Char) :
    List.intercalate [sep] (splitCharL sep l) = l := by
  induction l with
  | nil => simp [splitCharL, intercalate_single]
  | cons c rest ih =>
    unfold splitCharL
    cases hS : splitCharL sep rest with
    | nil => exact absurd hS (splitCharL_ne_nil sep rest)
    | cons h t =>
      rw [hS] at ih
      show List.intercalate [sep] (if c = sep then [] :: h :: t else (c :: h) :: t) = c :: rest
      by_cases hc : c = sep
      · rw [if_pos hc, intercalate_cons₂, ih, hc]
        rfl
      · rw [if_neg hc]
        cases t with
        | nil => rw [intercalate_single] at ih ⊢; rw [ih]
        | cons y t' =>
          rw [intercalate_cons₂] at ih ⊢
          rw [← ih]
          simp

theorem mem_takeWhile_ws {p : Char → Bool} {l : List Char} {x : Char}
    (h : x ∈ l.takeWhile p) : p x = true := by
  induction l with
  | nil => simp [List.takeWhile] at h
  | cons a rest ih =>
    rw [List.takeWhile_cons] at h
    by_cases ha : p a = true
    · rw [if_pos ha] at h
      rcases List.mem_cons.mp h with h | h
      · rw [h]; exact ha
      · exact ih h
    · rw [if_neg ha] at h
      simp at h

/-- C6 (amended): the content stored by the encoder is the original content
with a whitespace prefix and a whitespace suffix removed — leading blank
space is normalized away exactly like trailing blank space. -/
theorem encode_strip_both (c : String) :
    ∃ pre suf : List Char,
      c.data = pre ++ (contentStored c).data ++ suf ∧
        (∀ x ∈ pre, wsChar x = true) ∧ (∀ x ∈ suf, wsChar x = true) := by
  have hdata : (contentStored c).data = stripL c.data := rfl
  refine ⟨c.data.takeWhile wsChar,
    (((c.data.dropWhile wsChar).reverse.takeWhile wsChar)).reverse, ?_, ?_, ?_⟩
  · rw [hdata]
    unfold stripL
    conv_lhs => rw [← List.takeWhile_append_dropWhile (p := wsChar) (l := c.data)]
    rw [List.append_assoc]
    congr 1
    have hsplit := List.takeWhile_append_dropWhile (p := wsChar)
      (l := (c.data.dropWhile wsChar).reverse)
    have := congrArg List.reverse hsplit
    rw [List.reverse_append, List.reverse_reverse] at this
    conv_lhs => rw [← this]
  · exact fun x hx => mem_takeWhile_ws hx
  · intro x hx
    rw [List.mem_reverse] at hx
    exact mem_takeWhile_ws hx

/-- C6 counterexample: the stored content of a text entry beginning with a
blank line loses that line, while the normalization claimed by the spec
(trailing only) would keep it; the original is not the stored content plus
any trailing junk. -/
theorem encode_strip_counterexample :
    contentStored "\nfoo" = "foo" ∧ specTrailingStrip "\nfoo" = "\nfoo" ∧
      ¬ ∃ t : List Char, ("\nfoo" : String).data = (contentStored "\nfoo").data ++ t := by
  refine ⟨by decide, by decide, ?_⟩
  rintro ⟨t, ht⟩
  have hcs : (contentStored "\nfoo") = "foo" := by decide
  rw [hcs] at ht
  have h2 := congrArg List.head? ht
  have h3 : (("foo" : String).data ++ t).head? = some 'f' := by
    rw [List.head?_append]; rfl
  rw [h3] at h2
  exact absurd h2 (by decide)

theorem diffTags_nil_left (ys : List String) : diffTags [] ys = ys.map ((DTag.ins, ·)) := by
  simp [diffTags, dtFuel]

theorem diffTags_nil_right (xs : List String) : diffTags xs [] = xs.map ((DTag.del, ·)) := by
  cases xs <;> simp [diffTags, dtFuel]

theorem reorder_go_ins (dels inss : List (DTag × String)) (ls : List String) :
    reorderChanges.go dels inss (ls.map ((DTag.ins, ·))) = dels ++ inss ++ ls.map ((DTag.ins, ·)) := by
  induction ls generalizing inss with
  | nil => simp [reorderChanges.go]
  | cons l rest ih =>
    rw [List.map_cons]
    show reorderChanges.go dels (inss ++ [(DTag.ins, l)]) _ = _
    rw [ih]
    simp

theorem reorder_go_del (dels inss : List (DTag × String)) (ls : List String) :
    reorderChanges.go dels inss (ls.map ((DTag.del, ·))) =
      (dels ++ ls.map ((DTag.del, ·))) ++ inss := by
  induction ls generalizing dels with
  | nil => simp [reorderChanges.go]
  | cons l rest ih =>
    rw [List.map_cons]
    show reorderChanges.go (dels ++ [(DTag.del, l)]) inss _ = _
    rw [ih]
    simp

theorem reorderChanges_all_ins (ls : List String) :
    reorderChanges (ls.map ((DTag.ins, ·))) = ls.map ((DTag.ins, ·)) := by
  show reorderChanges.go [] [] _ = _
  rw [reorder_go_ins]
  simp

theorem reorderChanges_all_del (ls : List String) :
    reorderChanges (ls.map ((DTag.del, ·))) = ls.map ((DTag.del, ·)) := by
  show reorderChanges.go [] [] _ = _
  rw [reorder_go_del]
  simp

theorem gStep_init_ins (l : String) :
    gStep 3 ⟨[], none, [], 0, 0⟩ (DTag.ins, l) =
      ⟨[], some ⟨0, 0, 0, 1, [(DTag.ins, l)]⟩, [], 0, 1⟩ := by
  simp [gStep, gOnChange, openAt, addChange]

theorem gStep_init_del (l : String) :
    gStep 3 ⟨[], none, [], 0, 0⟩ (DTag.del, l) =
      ⟨[], some ⟨0, 0, 1, 0, [(DTag.del, l)]⟩, [], 1, 0⟩ := by
  simp [gStep, gOnChange, openAt, addChange]

theorem foldl_gStep_ins (ls : List String) (done : List Hunk) (g : GOpen) (i j : Nat) :
    List.foldl (gStep 3) ⟨done, some g, [], i, j⟩ (ls.map ((DTag.ins, ·))) =
      ⟨done,
        some ⟨g.i1, g.j1, g.oldCnt, g.newCnt + ls.length, g.lines ++ ls.map ((DTag.ins, ·))⟩,
        [], i, j + ls.length⟩ := by
  induction ls generalizing g j with
  | nil => simp
  | cons l rest ih =>
    rw [List.map_cons, List.foldl_cons]
    have hstep : gStep 3 ⟨done, some g, [], i, j⟩ (DTag.ins, l) =
        ⟨done, some ⟨g.i1, g.j1, g.oldCnt, g.newCnt + 1, g.lines ++ [(DTag.ins, l)]⟩,
          [], i, j + 1⟩ := by
      simp [gStep, gOnChange, absorbPend, addChange]
    rw [hstep, ih]
    have h1 : g.newCnt + 1 + rest.length = g.newCnt + (rest.length + 1) := by omega
    have h2 : j + 1 + rest.length = j + (rest.length + 1) := by omega
    simp [h1, h2, List.append_assoc]

theorem foldl_gStep_del (ls : List String) (done : List Hunk) (g : GOpen) (i j : Nat) :
    List.foldl (gStep 3) ⟨done, some g, [], i, j⟩ (ls.map ((DTag.del, ·))) =
      ⟨done,
        some ⟨g.i1, g.j1, g.oldCnt + ls.length, g.newCnt, g.lines ++ ls.map ((DTag.del, ·))⟩,
        [], i + ls.length, j⟩ := by
  induction ls generalizing g i with
  | nil => simp
  | cons l rest ih =>
    rw [List.map_cons, List.foldl_cons]
    have hstep : gStep 3 ⟨done, some g, [], i, j⟩ (DTag.del, l) =
        ⟨done, some ⟨g.i1, g.j1, g.oldCnt + 1, g.newCnt, g.lines ++ [(DTag.del, l)]⟩,
          [], i + 1, j⟩ := by
      simp [gStep, gOnChange, absorbPend, addChange]
    rw [hstep, ih]
    have h1 : g.oldCnt + 1 + rest.length = g.oldCnt + (rest.length + 1) := by omega
    have h2 : i + 1 + rest.length = i + (rest.length + 1) := by omega
    simp [h1, h2, List.append_assoc]

theorem groupHunks_all_ins (ls : List String) (h : ls ≠ []) :
    groupHunks 3 (ls.map ((DTag.ins, ·))) = [insHunkOf ls] := by
  cases ls with
  | nil => exact absurd rfl h
  | cons l rest =>
    unfold groupHunks
    rw [List.map_cons, List.foldl_cons, gStep_init_ins, foldl_gStep_ins]
    show [closeOpen _ _] = _
    rw [closeOpen]
    simp only [List.take_nil, List.map_nil, List.append_nil, List.length_nil]
    rw [List.singleton_append,
      show ((DTag.ins, l) :: rest.map ((DTag.ins, ·))) = (l :: rest).map ((DTag.ins, ·)) from rfl,
      reorderChanges_all_ins]
    simp [insHunkOf, Nat.add_comm]

theorem groupHunks_all_del (ls : List String) (h : ls ≠ []) :
    groupHunks 3 (ls.map ((DTag.del, ·))) = [delHunkOf ls] := by
  cases ls with
  | nil => exact absurd rfl h
  | cons l rest =>
    unfold groupHunks
    rw [List.map_cons, List.foldl_cons, gStep_init_del, foldl_gStep_del]
    show [closeOpen _ _] = _
    rw [closeOpen]
    simp only [List.take_nil, List.map_nil, List.append_nil, List.length_nil]
    rw [List.singleton_append,
      show ((DTag.del, l) :: rest.map ((DTag.del, ·))) = (l :: rest).map ((DTag.del, ·)) from rfl,
      reorderChanges_all_del]
    simp [delHunkOf, Nat.add_comm]

theorem str_eq_empty_iff {c : String} : c = "" ↔ c.data = [] := by
  constructor
  · intro h; rw [h]
  · intro h; rw [← str_eta c, h]

theorem splitCharL_eq_single_nil {sep : Char} {l : List Char}
    (h : splitCharL sep l = [[]]) : l = [] := by
  have := intercalate_splitCharL sep l
  rw [h] at this
  rw [← this]
  rfl

theorem pySplitlines_ne_nil {c : String} (h : c ≠ "") : pySplitlines c ≠ [] := by
  have hd : c.data ≠ [] := fun hc => h (str_eq_empty_iff.mpr hc)
  simp only [pySplitlines]
  cases hS : splitCharL '\n' c.data with
  | nil => exact absurd hS (splitCharL_ne_nil _ _)
  | cons x t =>
    cases t with
    | nil =>
      by_cases hx : x = ([] : List Char)
      · subst hx
        exact absurd (splitCharL_eq_single_nil hS) hd
      · rw [show List.getLast? [x] = some x from rfl]
        rw [if_neg (by simpa using hx)]
        simp
    | cons y t' =>
      split <;> simp

theorem pySplitlines_empty : pySplitlines "" = [] := by decide

theorem lookup_mem_keys {β : Type} {m : List (String × β)} {p : String} {v : β}
    (h : List.lookup p m = some v) : p ∈ m.map Prod.fst := by
  by_contra hc
  rw [← lookup_none_iff_keys (β := β)] at hc
  rw [h] at hc
  exact Option.noConfusion hc

theorem filterMap_keyed_single {γ : Type} {L : List String} {p : String}
    {F : String → Option γ} {v : γ} (hnd : L.Nodup) (hp : p ∈ L) (hv : F p = some v)
    (hothers : ∀ q ∈ L, q ≠ p → F q = none) :
    L.filterMap (fun q => (F q).map ((q, ·))) = [(p, v)] := by
  induction L with
  | nil => simp at hp
  | cons x rest ih =>
    rw [List.nodup_cons] at hnd
    rw [List.filterMap_cons]
    rcases List.mem_cons.mp hp with hpx | hpr
    · subst hpx
      rw [show ((F p).map ((p, ·))) = some (p, v) from by rw [hv]; rfl]
      have hrest : rest.filterMap (fun q => (F q).map ((q, ·))) = [] := by
        rw [List.filterMap_eq_nil_iff]
        intro q hq
        rw [hothers q (List.mem_cons_of_mem _ hq) (fun he => hnd.1 (he ▸ hq))]
        rfl
      simp [hrest]
    · have hxp : x ≠ p := fun he => hnd.1 (he ▸ hpr)
      rw [show ((F x).map ((x, ·))) = none from by
        rw [hothers x (List.mem_cons_self _ _) hxp]; rfl]
      exact ih hnd.2 hpr fun q hq hqp => hothers q (List.mem_cons_of_mem _ hq) hqp

theorem lookup_filterMap_keyed {γ : Type} (L : List String) (p : String)
    (F : String → Option γ) :
    List.lookup p (L.filterMap fun q => (F q).map ((q, ·))) =
      if p ∈ L then F p else none := by
  induction L with
  | nil => simp
  | cons x rest ih =>
    rw [List.filterMap_cons]
    by_cases hx : p = x
    · subst hx
      cases hF : F p with
      | none => simp [ih, hF]
      | some v => simp [List.lookup_cons_self]
    · cases hF : F x with
      | none => simpa [List.mem_cons, hx] using ih
      | some v =>
        show List.lookup p ((x, v) :: List.filterMap _ rest) = _
        rw [lookup_cons_ne _ _ hx, ih]
        simp [List.mem_cons, hx]

theorem diffKeys_nodup (a b : Snap) : (diffKeys a b).Nodup :=
  ((List.perm_insertionSort _ _).nodup_iff).mpr (List.nodup_dedup _)

theorem mem_diffKeys {a b : Snap} {p : String} :
    p ∈ diffKeys a b ↔ p ∈ a.map Prod.fst ∨ p ∈ b.map Prod.fst := by
  unfold diffKeys sortStrs
  rw [List.mem_insertionSort, List.mem_dedup, List.mem_append]

theorem lookup_append_single_ne {β : Type} (a : List (String × β)) {p k : String} (v : β)
    (h : p ≠ k) : List.lookup p (a ++ [(k, v)]) = List.lookup p a := by
  rw [lookup_append_or]
  rw [show List.lookup p [(k, v)] = none from by simp [List.lookup, beq_false_of_ne h]]
  cases List.lookup p a <;> rfl

theorem diffFor_same {a b : Snap} {p : String}
    (h : entryStrOf (List.lookup p a) = entryStrOf (List.lookup p b)) :
    diffFor a b p = none := by
  simp [diffFor, h]

theorem diffFor_add_hunks {a b : Snap} {p : String} {c : String}
    (ha : entryStrOf (List.lookup p a) = "") (hb : entryStrOf (List.lookup p b) = c)
    (hc : c ≠ "") : diffFor a b p = some [insHunkOf (pySplitlines c)] := by
  unfold diffFor
  rw [ha, hb, if_neg fun he => hc he.symm, pySplitlines_empty, diffTags_nil_left,
    groupHunks_all_ins _ (pySplitlines_ne_nil hc)]

theorem diffFor_del_hunks {a b : Snap} {p : String} {c : String}
    (ha : entryStrOf (List.lookup p a) = c) (hb : entryStrOf (List.lookup p b) = "")
    (hc : c ≠ "") : diffFor a b p = some [delHunkOf (pySplitlines c)] := by
  unfold diffFor
  rw [ha, hb, if_neg hc, pySplitlines_empty, diffTags_nil_right,
    groupHunks_all_del _ (pySplitlines_ne_nil hc)]

/-- C3 (amended): adding a new text file with nonempty content yields
exactly one FilePatch — a single hunk spanning the full new content with an
empty old range — and no entry for any unchanged path; removing a path with
nonempty text content yields exactly one FilePatch whose single hunk
removes the full old content (empty new range), not a FilePatch with zero
hunks. -/
theorem diff_add_delete :
    (∀ (a : Snap) (p : String) (c : String), List.lookup p a = none → c ≠ "" →
      diffBlocks a (a ++ [(p, some c)]) = [(p, [insHunkOf (pySplitlines c)])]) ∧
    (∀ (a : Snap) (p : String) (c : String), List.lookup p a = some (some c) → c ≠ "" →
      diffBlocks a (delEntry a p) = [(p, [delHunkOf (pySplitlines c)])]) := by
  constructor
  · intro a p c hlk hc
    apply filterMap_keyed_single (diffKeys_nodup _ _)
    · refine mem_diffKeys.mpr (Or.inr ?_)
      rw [List.map_append]
      exact List.mem_append.mpr (Or.inr (by simp))
    · refine diffFor_add_hunks (by rw [hlk]; rfl) ?_ hc
      rw [lookup_append_or, hlk,
        show List.lookup p [(p, some c)] = some (some c) from List.lookup_cons_self]
      rfl
    · intro q hq hqp
      exact diffFor_same (by rw [lookup_append_single_ne a (some c) hqp])
  · intro a p c hlk hc
    apply filterMap_keyed_single (diffKeys_nodup _ _)
    · exact mem_diffKeys.mpr (Or.inl (lookup_mem_keys hlk))
    · refine diffFor_del_hunks (by rw [hlk]; rfl) ?_ hc
      rw [lookup_delEntry_self]
      rfl
    · intro q hq hqp
      exact diffFor_same (by rw [lookup_delEntry_ne _ _ hqp])

theorem diff_add_delete_witness :
    diffBlocks [] ([] ++ [("b.txt", some "new")]) = [("b.txt", [insHunkOf (pySplitlines "new")])] ∧
      diffBlocks [("a.txt", some "x")] (delEntry [("a.txt", some "x")] "a.txt") =
        [("a.txt", [delHunkOf (pySplitlines "x")])] :=
  ⟨diff_add_delete.1 [] "b.txt" "new" (by decide) (by decide),
   diff_add_delete.2 [("a.txt", some "x")] "a.txt" "x" (by decide) (by decide)⟩

/-- C3 counterexample: deleting the only file produces one FilePatch whose
single hunk removes the content — one hunk, not the zero hunks the claim
states. -/
theorem diff_add_delete_counterexample :
    diffBlocks [("a.txt", some "x")] [] = [("a.txt", [delHunkOf ["x"]])] ∧
      ¬ diffBlocks [("a.txt", some "x")] [] = [("a.txt", [])] := by
  constructor <;> decide

/-- C7 (amended): binary markers are coerced to empty content by the diff
loop, so a path binary in both snapshots, a binary marker added or deleted,
and a binary marker facing an empty text entry are all omitted from the
PatchSet; a binary marker facing a nonempty text entry appears as one
full-content hunk in the appropriate direction. -/
theorem diff_binary_handling (a b : Snap) (p : String) :
    (List.lookup p a = some none → List.lookup p b = some none →
      List.lookup p (diffBlocks a b) = none) ∧
    (List.lookup p a = none → List.lookup p b = some none →
      List.lookup p (diffBlocks a b) = none) ∧
    (List.lookup p a = some none → List.lookup p b = none →
      List.lookup p (diffBlocks a b) = none) ∧
    (List.lookup p a = some none → List.lookup p b = some (some "") →
      List.lookup p (diffBlocks a b) = none) ∧
    (∀ c : String, c ≠ "" → List.lookup p a = some none →
      List.lookup p b = some (some c) →
      List.lookup p (diffBlocks a b) = some [insHunkOf (pySplitlines c)]) ∧
    (∀ c : String, c ≠ "" → List.lookup p a = some (some c) →
      List.lookup p b = some none →
      List.lookup p (diffBlocks a b) = some [delHunkOf (pySplitlines c)]) := by
  have hlk : List.lookup p (diffBlocks a b) =
      if p ∈ diffKeys a b then diffFor a b p else none :=
    lookup_filterMap_keyed (diffKeys a b) p (diffFor a b)
  refine ⟨?_, ?_, ?_, ?_, ?_, ?_⟩
  · intro h1 h2
    rw [hlk, diffFor_same (by rw [h1, h2])]
    simp
  · intro h1 h2
    rw [hlk, diffFor_same (by rw [h1, h2]; rfl)]
    simp
  · intro h1 h2
    rw [hlk, diffFor_same (by rw [h1, h2]; rfl)]
    simp
  · intro h1 h2
    rw [hlk, diffFor_same (by rw [h1, h2]; rfl)]
    simp
  · intro c hc h1 h2
    rw [hlk, if_pos (mem_diffKeys.mpr (Or.inr (lookup_mem_keys h2)))]
    exact diffFor_add_hunks (by rw [h1]; rfl) (by rw [h2]; rfl) hc
  · intro c hc h1 h2
    rw [hlk, if_pos (mem_diffKeys.mpr (Or.inl (lookup_mem_keys h1)))]
    exact diffFor_del_hunks (by rw [h1]; rfl) (by rw [h2]; rfl) hc

theorem diff_binary_handling_witness :
    List.lookup "img.png" (diffBlocks [] [("img.png", none)]) = none ∧
      List.lookup "b" (diffBlocks [("b", none)] [("b", some "x")]) =
        some [insHunkOf (pySplitlines "x")] :=
  ⟨(diff_binary_handling [] [("img.png", none)] "img.png").2.1 (by decide) (by decide),
   (diff_binary_handling [("b", none)] [("b", some "x")] "b").2.2.2.2.1 "x"
     (by decide) (by decide) (by decide)⟩

/-- C7 counterexample: a binary marker added to an empty snapshot is
coerced to empty content on both sides and therefore omitted from the
PatchSet, while the claim says every non binary-to-binary pairing appears
in it. -/
theorem diff_binary_handling_counterexample :
    diffBlocks [] [("img.png", none)] = [] ∧
      ¬ ∃ e ∈ diffBlocks [] [("img.png", none)], e.1 = "img.png" := by
  refine ⟨by decide, ?_⟩
  rintro ⟨e, he, -⟩
  rw [show diffBlocks [] [("img.png", none)] = [] from by decide] at he
  simp at he

/-! ## Decimal rendering lemmas -/

